import Mathlib

/-!
Verification of the setonix neural-network core.

Shallow embedding of the Rust sources `src/model/network.rs`,
`src/model/training.rs` and `src/main.rs`.  Machine floats (`f64`) are
modelled as exact rationals (`ℚ`); the transcendental helpers `exp` and `ln`
that the Sigmoid/Softmax activations and the cross-entropy cost use are
passed as explicit function parameters, since no claim depends on their
numeric behaviour.  Rust panics are modelled by `Option`-valued functions
(`none` means the operation aborts).  The process-wide random generator
`rand::random::<f64>()` (uniform draws from `[0,1)`) is modelled as an
abstract stream `g : Nat → ℚ` consumed at successive indices, with the index
threaded through every operation exactly as the source draws values.
-/

namespace Setonix

/-- The `ActivationFunction` enum of `network.rs`. -/
inductive ActivationFunction
  | Linear
  | ReLU
  | Sigmoid
  | Softmax
deriving DecidableEq, Repr

/-- The `CostFunction` enum of `network.rs`. -/
inductive CostFunction
  | MSE
  | CCE
deriving DecidableEq, Repr

/-- The `Label` enum of `training.rs`. -/
inductive Label
  | Real
  | Fake
deriving DecidableEq, Repr

/-- The `strum` derived `Label::COUNT`: number of `Label` variants. -/
def Label.COUNT : Nat := 2

/-- The `Neuron` struct of `network.rs`. -/
structure Neuron where
  weights : List ℚ
  bias : ℚ
  output : ℚ
deriving DecidableEq, Repr

/-- The `Layer` struct of `network.rs`. -/
structure Layer where
  neurons : List Neuron
  function : ActivationFunction
deriving DecidableEq, Repr

/-- The `Network` struct of `network.rs`.  The `Status` phantom marker
(`Construction` vs `Ready`) restricts which Rust methods are callable but has
no runtime content, so the embedding uses one structure; reachability
predicates below track which values arise in each typestate. -/
structure Network where
  input_size : Nat
  layers : List Layer
  cost_function : CostFunction
deriving DecidableEq, Repr

/-- The `Datapoint` struct of `training.rs`. -/
structure Datapoint where
  inputs : List ℚ
  label : Label
deriving DecidableEq, Repr

/-- The `Dataset` struct of `training.rs`. -/
structure Dataset where
  datapoints : List Datapoint
deriving DecidableEq, Repr

/-- The `Dataset::size` accessor of `training.rs`. -/
def Dataset.size (ds : Dataset) : Nat := ds.datapoints.length

/-- The `Label::one_hot` encoding of `training.rs`. -/
def Label.one_hot : Label → List ℚ
  | .Real => [1, 0]
  | .Fake => [0, 1]

/-- The `Datapoint::targets` accessor of `training.rs`. -/
def Datapoint.targets (dp : Datapoint) : List ℚ := dp.label.one_hot

/-- Rust `Iterator::max_by` with comparison on the second (value) component,
as used in `impl From<&Vec<f64>> for Label`.  `core::cmp::max_by` keeps the
first argument only when it compares strictly greater, so on ties the later
element wins: `max_by` returns the LAST maximal element. -/
def maxByLast (l : List (Nat × ℚ)) : Option (Nat × ℚ) :=
  match l with
  | [] => none
  | x :: xs => some (xs.foldl (fun acc y => if acc.2 > y.2 then acc else y) x)

/-- The `impl From<&Vec<f64>> for Label` of `training.rs` (named `ofOutputs`
because `from` is a Lean keyword).  Panics (`none`) when the vector length is
not `Label::COUNT`; otherwise takes the argmax under `max_by`/`total_cmp`
(which on the non-NaN values representable in `ℚ` is the numeric order) and
maps index 0 to `Real`, every other index to `Fake`. -/
def Label.ofOutputs (outputs : List ℚ) : Option Label :=
  if outputs.length ≠ Label.COUNT then none
  else
    match maxByLast outputs.enum with
    | none => none
    | some (index, _) => some (if index = 0 then .Real else .Fake)

/-- Rust `rand::random::<f64>()`, a uniform draw from `[0,1)`, modelled as
reading an abstract stream `g` at index `i`. -/
def draw (g : Nat → ℚ) (i : Nat) : ℚ := g i

/-- The `Neuron::random` helper of `network.rs`: a uniform draw from
`[-1, 1)`, obtained as `rand::random::<f64>() * 2.0 - 1.0`. -/
def Neuron.random (g : Nat → ℚ) (i : Nat) : ℚ := draw g i * 2 - 1

/-- The `Neuron::new` constructor of `network.rs`: `size` fresh random
weights drawn at indices `i, …, i + size - 1`, then a random bias at index
`i + size`; the memoized `output` starts at the `f64` default `0.0`. -/
def Neuron.new (size : Nat) (g : Nat → ℚ) (i : Nat) : Neuron :=
  { weights := (List.range size).map (fun j => Neuron.random g (i + j)),
    bias := Neuron.random g (i + size),
    output := 0 }

/-- The `Neuron::weighted_sum` method of `network.rs`: panics (`none`) when
the input length differs from the weight length, otherwise folds up the dot
product plus bias, memoizes it in `output` and returns it. -/
def Neuron.weighted_sum (nr : Neuron) (inputs : List ℚ) : Option (Neuron × ℚ) :=
  if inputs.length ≠ nr.weights.length then none
  else
    let out := (nr.weights.zip inputs).foldl
      (fun accumulator p => accumulator + p.1 * p.2) 0 + nr.bias
    some ({ nr with output := out }, out)

/-- The weight loop of `impl Genetic for Neuron` in `network.rs`: each weight
receives an additive perturbation `Neuron::random() * alpha`, consuming one
draw per weight starting at stream index `i`. -/
def mutateWeights (g : Nat → ℚ) (alpha : ℚ) : List ℚ → Nat → List ℚ
  | [], _ => []
  | w :: ws, i => (w + Neuron.random g i * alpha) :: mutateWeights g alpha ws (i + 1)

/-- The `impl Genetic for Neuron` of `network.rs`: perturbs every weight then
the bias, leaving `output` untouched; returns the neuron together with the
next unused stream index. -/
def Neuron.mutate (g : Nat → ℚ) (alpha : ℚ) (nr : Neuron) (i : Nat) :
    Neuron × Nat :=
  ({ weights := mutateWeights g alpha nr.weights i,
     bias := nr.bias + Neuron.random g (i + nr.weights.length) * alpha,
     output := nr.output },
   i + nr.weights.length + 1)

/-- Sequential mutation of a list of neurons, threading the random stream. -/
def mutateNeurons (g : Nat → ℚ) (alpha : ℚ) :
    List Neuron → Nat → List Neuron × Nat
  | [], i => ([], i)
  | nr :: ns, i =>
    let p := Neuron.mutate g alpha nr i
    let q := mutateNeurons g alpha ns p.2
    (p.1 :: q.1, q.2)

/-- The `impl Genetic for Layer` of `network.rs`: delegates to every neuron
with the same `alpha`. -/
def Layer.mutate (g : Nat → ℚ) (alpha : ℚ) (l : Layer) (i : Nat) :
    Layer × Nat :=
  let q := mutateNeurons g alpha l.neurons i
  ({ neurons := q.1, function := l.function }, q.2)

/-- Sequential mutation of a list of layers, threading the random stream. -/
def mutateLayers (g : Nat → ℚ) (alpha : ℚ) :
    List Layer → Nat → List Layer × Nat
  | [], i => ([], i)
  | l :: ls, i =>
    let p := Layer.mutate g alpha l i
    let q := mutateLayers g alpha ls p.2
    (p.1 :: q.1, q.2)

/-- The `impl Genetic for Network<Ready>` of `network.rs`: delegates to every
layer with the same `alpha`. -/
def Network.mutate (g : Nat → ℚ) (alpha : ℚ) (net : Network) (i : Nat) :
    Network × Nat :=
  let q := mutateLayers g alpha net.layers i
  ({ net with layers := q.1 }, q.2)

/-- Topology of a network: for each layer, the weight-vector length of each
of its neurons. -/
def Network.shape (net : Network) : List (List Nat) :=
  net.layers.map (fun l => l.neurons.map (fun nr => nr.weights.length))

/-- The `ActivationFunction::apply` dispatch of `network.rs`; `fexp` stands
for `f64::exp`. -/
def ActivationFunction.apply (fexp : ℚ → ℚ) :
    ActivationFunction → List ℚ → List ℚ
  | .Linear, outputs => outputs
  | .ReLU, outputs => outputs.map (fun output => max 0 output)
  | .Sigmoid, outputs => outputs.map (fun output => 1 / (1 + fexp (-output)))
  | .Softmax, outputs =>
    let partition := outputs.foldl
      (fun accumulator output => accumulator + fexp output) 0
    outputs.map (fun output => fexp output / partition)

/-- The `CostFunction::apply` dispatch of `network.rs`; `fexp` and `fln`
stand for `f64::exp` and `f64::ln`.  `zip` silently stops at the shorter of
the two vectors, exactly as Rust `Iterator::zip` does. -/
def CostFunction.apply (fexp fln : ℚ → ℚ) :
    CostFunction → List ℚ → List ℚ → ℚ
  | .CCE, outputs, targets =>
    -((((ActivationFunction.Softmax.apply fexp outputs).zip targets).map
        (fun p => p.2 * fln p.1)).sum)
  | .MSE, outputs, targets =>
    ((outputs.zip targets).map (fun p => (p.2 - p.1) * (p.2 - p.1))).sum
      / (outputs.length : ℚ)

/-- The `Layer::get_size` accessor of `network.rs`. -/
def Layer.get_size (l : Layer) : Nat := l.neurons.length

/-- The per-neuron weighted-sum pass inside `Layer::forward`: every neuron
computes (and memoizes) its weighted sum of the same input vector; a
dimension mismatch anywhere aborts (`none`). -/
def weightedSums (inputs : List ℚ) : List Neuron → Option (List Neuron × List ℚ)
  | [] => some ([], [])
  | nr :: ns =>
    match nr.weighted_sum inputs, weightedSums inputs ns with
    | some (nr2, s), some (ns2, ss) => some (nr2 :: ns2, s :: ss)
    | _, _ => none

/-- The `Layer::forward` method of `network.rs`: weighted sums of all
neurons, then the layer activation applied to the whole vector. -/
def Layer.forward (fexp : ℚ → ℚ) (l : Layer) (inputs : List ℚ) :
    Option (Layer × List ℚ) :=
  match weightedSums inputs l.neurons with
  | none => none
  | some (ns, sums) =>
    some ({ neurons := ns, function := l.function }, l.function.apply fexp sums)

/-- The layer loop of `Network::run`: sequentially forwards the inputs
through each layer, accumulating the updated (output-memoizing) layers. -/
def forwardAll (fexp : ℚ → ℚ) : List Layer → List ℚ → Option (List Layer × List ℚ)
  | [], inputs => some ([], inputs)
  | l :: ls, inputs =>
    match l.forward fexp inputs with
    | none => none
    | some (l2, out) =>
      match forwardAll fexp ls out with
      | none => none
      | some (ls2, out2) => some (l2 :: ls2, out2)

/-- The `Network::<Ready>::run` method of `network.rs`: forwards the
datapoint inputs through every layer, then derives the label from the final
output vector; returns the updated network (memoized outputs) as well. -/
def Network.run (fexp : ℚ → ℚ) (net : Network) (dp : Datapoint) :
    Option (Network × Label × List ℚ) :=
  match forwardAll fexp net.layers dp.inputs with
  | none => none
  | some (ls, outputs) =>
    match Label.ofOutputs outputs with
    | none => none
    | some label => some ({ net with layers := ls }, label, outputs)

/-- Result of an `f64` division whose operands are finite: IEEE 754 gives
`NaN` for `0/0`, a signed infinity for `x/0` with `x ≠ 0`, and an ordinary
quotient otherwise (sign of the infinity is not tracked). -/
inductive FVal
  | fin : ℚ → FVal
  | nan
  | inf
deriving DecidableEq, Repr

/-- IEEE 754 division of finite operands (see `FVal`). -/
def fdiv (a b : ℚ) : FVal :=
  if b = 0 then (if a = 0 then .nan else .inf) else .fin (a / b)

/-- The datapoint loop of `Network::<Ready>::cost`: runs every datapoint and
accumulates the loss of its outputs against its one-hot targets. -/
def costLoop (fexp fln : ℚ → ℚ) :
    Network → List Datapoint → ℚ → Option (Network × ℚ)
  | net, [], accumulator => some (net, accumulator)
  | net, dp :: dps, accumulator =>
    match Network.run fexp net dp with
    | none => none
    | some (net2, _, outputs) =>
      costLoop fexp fln net2 dps
        (accumulator + net.cost_function.apply fexp fln outputs dp.targets)

/-- The `Network::<Ready>::cost` method of `network.rs`: total loss over the
dataset divided (as an `f64` division, see `fdiv`) by the dataset size. -/
def Network.cost (fexp fln : ℚ → ℚ) (net : Network) (ds : Dataset) :
    Option (Network × FVal) :=
  match costLoop fexp fln net ds.datapoints 0 with
  | none => none
  | some (net2, accumulator) => some (net2, fdiv accumulator (ds.size : ℚ))

/-- The `Network::output_size` method of `network.rs`:
`self.layers.last().map_or(self.input_size, |layer| layer.get_size())`. -/
def Network.output_size (net : Network) : Nat :=
  net.layers.getLast?.elim net.input_size Layer.get_size

/-- The `Network::<Construction>::new` constructor of `network.rs`: zero
layers and the default cost function (`MSE`). -/
def Network.new (input_size : Nat) : Network :=
  { input_size := input_size, layers := [], cost_function := .MSE }

/-- The `Layer::new` constructor of `network.rs`: `size` fresh neurons, each
with `input_size` weights; neuron `k` consumes the `input_size + 1` draws
starting at `i + k * (input_size + 1)`. -/
def Layer.new (input_size size : Nat) (function : ActivationFunction)
    (g : Nat → ℚ) (i : Nat) : Layer :=
  { neurons := (List.range size).map
      (fun k => Neuron.new input_size g (i + k * (input_size + 1))),
    function := function }

/-- The `Network::<Construction>::add_layer` builder step of `network.rs`:
appends a layer whose input width is the current `output_size`. -/
def Network.add_layer (net : Network) (size : Nat)
    (function : ActivationFunction) (g : Nat → ℚ) (i : Nat) : Network :=
  { net with layers := net.layers ++ [Layer.new net.output_size size function g i] }

/-- The `Network::<Construction>::build` transition of `network.rs`: fixes
the cost function and moves the unchanged topology into the `Ready` state. -/
def Network.build (net : Network) (cost_function : CostFunction) : Network :=
  { net with cost_function := cost_function }

/-- Construction-state networks reachable through the public constructors:
`Network::new` followed by any sequence of `add_layer` calls. -/
inductive ReachableC : Network → Prop
  | new : ∀ n, ReachableC (Network.new n)
  | add_layer : ∀ net size function g i,
      ReachableC net → ReachableC (net.add_layer size function g i)

/-- Ready-state networks reachable through the public constructors: a
reachable construction-state network finished with `build`. -/
def ReachableR (net : Network) : Prop :=
  ∃ c cost, ReachableC c ∧ net = c.build cost

/-- Every neuron of the layer has exactly `w` weights. -/
def Layer.inputWidthIs (l : Layer) (w : Nat) : Bool :=
  l.neurons.all (fun nr => nr.weights.length == w)

/-- The layer list is dimension-chained starting from input width `w`: each
neurons of each layer have as many weights as the previous layer has neurons (or
`w` for the first layer). -/
def layersChained (w : Nat) : List Layer → Bool
  | [] => true
  | l :: ls => l.inputWidthIs w && layersChained l.get_size ls

/-- The shape invariant of the spec, section 3: adjacent layers agree on
widths and the first layer matches `input_size`. -/
def Network.shapeOK (net : Network) : Bool :=
  layersChained net.input_size net.layers

/-- Output width of a dimension-chained layer list that starts at width `w`. -/
def chainOut (w : Nat) : List Layer → Nat
  | [] => w
  | l :: ls => chainOut l.get_size ls

/-- The noise loop of `Datapoint::add_noise` in `training.rs`: for each input
value `v`, one uniform draw is rescaled from `[0,1)` to `[min, max) =
[-v, 1-v)` and multiplied by `alpha`. -/
def noiseOf (g : Nat → ℚ) (alpha : ℚ) : List ℚ → Nat → List ℚ
  | [], _ => []
  | input :: rest, i =>
    let mn := -input
    let mx := 1 - input
    (draw g i * (mx - mn) + mn) * alpha :: noiseOf g alpha rest (i + 1)

/-- The `Datapoint::add_noise` method of `training.rs`: builds the noise
vector, then returns a fresh `Datapoint` whose inputs are the elementwise sum
of the old inputs and the noise, together with the raw noise vector.  The
Rust method takes `&mut self` but never writes through it, so the embedding
is a pure function of the receiver. -/
def Datapoint.add_noise (g : Nat → ℚ) (dp : Datapoint) (alpha : ℚ) (i : Nat) :
    Datapoint × List ℚ :=
  let noise := noiseOf g alpha dp.inputs i
  ({ inputs := (dp.inputs.zip noise).map (fun p => p.1 + p.2),
     label := dp.label },
   noise)

/-- The `while width * height != length` search of
`impl Into<DynamicImage> for &Datapoint` in `training.rs`, written with an
explicit fuel bound; `none` means the loop has not finished within `fuel`
iterations. -/
def whLoop (fuel : Nat) (length width height : Nat) : Option (Nat × Nat) :=
  match fuel with
  | 0 => none
  | fuel + 1 =>
    if width * height = length then some (width, height)
    else if length < width * height then whLoop fuel length width (height - 1)
    else whLoop fuel length (width + 1) height

/-- Ceiling of the real square root of a natural number, the value
`f64::sqrt(length).ceil()` computes for exactly representable inputs. -/
def ceilSqrt (n : Nat) : Nat :=
  if Nat.sqrt n * Nat.sqrt n = n then Nat.sqrt n else Nat.sqrt n + 1

/-- Fuel sufficient for `whLoop` from the square-root starting point. -/
def whFuel (n : Nat) : Nat := ceilSqrt n + (n - Nat.sqrt n) + 1

/-- The width/height search of the decoder, started as in the source from
`floor(sqrt(length))` and `ceil(sqrt(length))`. -/
def findDims (n : Nat) : Option (Nat × Nat) :=
  whLoop (whFuel n) n (Nat.sqrt n) (ceilSqrt n)

/-- The Rust saturating cast `(channel * 255.0) as u8`: truncation clamped to
`[0, 255]` (floor and truncation agree after the clamp to non-negatives). -/
def toByte (q : ℚ) : Nat := (min 255 (max 0 ⌊q * 255⌋)).toNat

/-- Option-valued map over a list: `none` as soon as `f` aborts anywhere. -/
def mapSome (f : α → Option β) : List α → Option (List β)
  | [] => some []
  | a :: rest =>
    match f a, mapSome f rest with
    | some b, some bs => some (b :: bs)
    | _, _ => none

/-- One pixel of the decoder: the slice `self.inputs[index..index + 4]`
(panicking, i.e. `none`, when it runs past the end of the vector), each
channel scaled by 255 and cast to a byte; the `if let &[r, g, b, a]` pattern
is total for in-bounds slices. -/
def pixelAt (inputs : List ℚ) (index : Nat) : Option (Nat × Nat × Nat × Nat) :=
  if index + 4 ≤ inputs.length then
    match ((inputs.drop index).take 4).map toByte with
    | [r, g, b, a] => some (r, g, b, a)
    | _ => none
  else none

/-- An RGBA8 pixel buffer: the `DynamicImage` the decoder produces, with the
pixels listed in the order the source writes them (row-major, `y` outer). -/
structure Image where
  width : Nat
  height : Nat
  pixels : List (Nat × Nat × Nat × Nat)
deriving DecidableEq, Repr

/-- Flat input indices of row `y` of the decoded image: `(x + y * width) * 4`
for `x` from 0 to `width - 1`. -/
def rowIdx (width y : Nat) : List Nat :=
  (List.range width).map (fun x => (x + y * width) * 4)

/-- Flat input indices of all pixels in write order. -/
def allIdx (width height : Nat) : List Nat :=
  (List.range height).flatMap (rowIdx width)

/-- The `impl Into<DynamicImage> for &Datapoint` of `training.rs`: the pixel
count is the floor of `inputs.len() / 4`, the dimensions come from the
square-root search, and each pixel is scattered back from its 4-tuple. -/
def toImage (dp : Datapoint) : Option Image :=
  let length := dp.inputs.length / 4
  match findDims length with
  | none => none
  | some (width, height) =>
    match mapSome (pixelAt dp.inputs) (allIdx width height) with
    | none => none
    | some px => some { width := width, height := height, pixels := px }

/-- JSON values, the external representation `serde_json` maps the derived
`Serialize`/`Deserialize` implementations onto.  Numbers are exact (`serde_json`
prints `f64` with enough digits to round-trip losslessly). -/
inductive Json
  | null
  | num : ℚ → Json
  | str : String → Json
  | arr : List Json → Json
  | obj : List (String × Json) → Json

/-- Field lookup in a JSON object, first binding wins. -/
def Json.getField (j : Json) (name : String) : Option Json :=
  match j with
  | .obj fields => (fields.find? (fun p => p.1 == name)).map (fun p => p.2)
  | _ => none

/-- Decoder for an `f64` field. -/
def decodeNum : Json → Option ℚ
  | .num q => some q
  | _ => none

/-- Decoder for a `usize` field: the number must be a non-negative integer. -/
def decodeNat : Json → Option Nat
  | .num q => if (q.num.toNat : ℚ) = q then some q.num.toNat else none
  | _ => none

/-- Decoder for a `Vec<f64>` field. -/
def decodeNums : Json → Option (List ℚ)
  | .arr xs => mapSome decodeNum xs
  | _ => none

/-- The derived `Serialize` of `ActivationFunction`: externally tagged unit
variants become plain strings. -/
def encodeAct : ActivationFunction → Json
  | .Linear => .str "Linear"
  | .ReLU => .str "ReLU"
  | .Sigmoid => .str "Sigmoid"
  | .Softmax => .str "Softmax"

/-- The derived `Deserialize` of `ActivationFunction`. -/
def decodeAct : Json → Option ActivationFunction
  | .str s =>
    if s = "Linear" then some .Linear
    else if s = "ReLU" then some .ReLU
    else if s = "Sigmoid" then some .Sigmoid
    else if s = "Softmax" then some .Softmax
    else none
  | _ => none

/-- The derived `Serialize` of `CostFunction`. -/
def encodeCost : CostFunction → Json
  | .MSE => .str "MSE"
  | .CCE => .str "CCE"

/-- The derived `Deserialize` of `CostFunction`. -/
def decodeCost : Json → Option CostFunction
  | .str s =>
    if s = "MSE" then some .MSE
    else if s = "CCE" then some .CCE
    else none
  | _ => none

/-- The derived `Serialize` of `Neuron`. -/
def encodeNeuron (nr : Neuron) : Json :=
  .obj [("weights", .arr (nr.weights.map .num)),
        ("bias", .num nr.bias),
        ("output", .num nr.output)]

/-- The derived `Deserialize` of `Neuron`. -/
def decodeNeuron (j : Json) : Option Neuron := do
  let ws ← decodeNums (← j.getField "weights")
  let bias ← decodeNum (← j.getField "bias")
  let output ← decodeNum (← j.getField "output")
  some { weights := ws, bias := bias, output := output }

/-- The derived `Serialize` of `Layer`. -/
def encodeLayer (l : Layer) : Json :=
  .obj [("neurons", .arr (l.neurons.map encodeNeuron)),
        ("function", encodeAct l.function)]

/-- Decoder for a `Vec<Neuron>` field. -/
def decodeNeurons : Json → Option (List Neuron)
  | .arr xs => mapSome decodeNeuron xs
  | _ => none

/-- The derived `Deserialize` of `Layer`. -/
def decodeLayer (j : Json) : Option Layer := do
  let ns ← decodeNeurons (← j.getField "neurons")
  let f ← decodeAct (← j.getField "function")
  some { neurons := ns, function := f }

/-- Decoder for a `Vec<Layer>` field. -/
def decodeLayers : Json → Option (List Layer)
  | .arr xs => mapSome decodeLayer xs
  | _ => none

/-- The `Network::<Ready>::serialize` method of `network.rs`, at the level of
the JSON value `serde_json::to_string` renders (the file write is an external
I/O concern): the derived `Serialize` of `Network`, with the `PhantomData`
marker field serialized as `null`. -/
def Network.serialize (net : Network) : Json :=
  .obj [("input_size", .num (net.input_size : ℚ)),
        ("layers", .arr (net.layers.map encodeLayer)),
        ("cost_function", encodeCost net.cost_function),
        ("marker", .null)]

/-- The `Network::<Ready>::deserialize` method of `network.rs`, at the level
of the parsed JSON value (the file read is an external I/O concern): the
derived `Deserialize` of `Network`. -/
def Network.deserialize (j : Json) : Option Network := do
  let n ← decodeNat (← j.getField "input_size")
  let ls ← decodeLayers (← j.getField "layers")
  let c ← decodeCost (← j.getField "cost_function")
  some { input_size := n, layers := ls, cost_function := c }

/-! ## Supporting lemmas -/

lemma chainOut_eq_getLast (w : Nat) (ls : List Layer) :
    chainOut w ls = ls.getLast?.elim w Layer.get_size := by
  induction ls generalizing w with
  | nil => rfl
  | cons l ls ih =>
    cases ls with
    | nil => simp [chainOut, Option.elim]
    | cons l2 ls2 =>
      rw [chainOut, ih]
      rcases h : (l2 :: ls2).getLast? with _ | x
      · simp at h
      · simp [h]

lemma layersChained_append (w : Nat) (ls : List Layer) (l : Layer)
    (hc : layersChained w ls = true)
    (hl : l.inputWidthIs (chainOut w ls) = true) :
    layersChained w (ls ++ [l]) = true := by
  induction ls generalizing w with
  | nil =>
    simp [layersChained, chainOut] at hl ⊢
    exact hl
  | cons hd tl ih =>
    simp only [layersChained, Bool.and_eq_true] at hc ⊢
    exact ⟨hc.1, ih _ hc.2 hl⟩

lemma Neuron.new_weights_length (size : Nat) (g : Nat → ℚ) (i : Nat) :
    (Neuron.new size g i).weights.length = size := by
  simp [Neuron.new]

lemma Layer.new_inputWidthIs (input_size size : Nat)
    (function : ActivationFunction) (g : Nat → ℚ) (i : Nat) :
    (Layer.new input_size size function g i).inputWidthIs input_size = true := by
  simp [Layer.new, Layer.inputWidthIs, List.all_eq_true, Neuron.new_weights_length]

lemma Network.output_size_eq_chainOut (net : Network) :
    net.output_size = chainOut net.input_size net.layers := by
  rw [Network.output_size, chainOut_eq_getLast]

lemma foldl_mul_sum (l : List (ℚ × ℚ)) (init : ℚ) :
    l.foldl (fun accumulator p => accumulator + p.1 * p.2) init
      = init + (l.map (fun p => p.1 * p.2)).sum := by
  induction l generalizing init with
  | nil => simp
  | cons x xs ih => simp [ih]; ring

lemma zip_map_sum_eq (f : ℚ → ℚ → ℚ) :
    ∀ ws xs : List ℚ, ws.length = xs.length →
      ((ws.zip xs).map (fun p => f p.1 p.2)).sum
        = ∑ i in Finset.range ws.length, f (ws.getD i 0) (xs.getD i 0) := by
  intro ws
  induction ws with
  | nil => intro xs h; simp
  | cons w ws ih =>
    intro xs h
    cases xs with
    | nil => simp at h
    | cons x xs =>
      simp only [List.zip_cons_cons, List.map_cons, List.sum_cons, List.length_cons]
      rw [Finset.sum_range_succ']
      simp only [List.getD_cons_succ, List.getD_cons_zero]
      rw [ih xs (by simpa using h)]
      ring

lemma mutateWeights_zero (g : Nat → ℚ) (ws : List ℚ) (i : Nat) :
    mutateWeights g 0 ws i = ws := by
  induction ws generalizing i with
  | nil => rfl
  | cons w ws ih => simp [mutateWeights, ih]

lemma mutateWeights_length (g : Nat → ℚ) (alpha : ℚ) (ws : List ℚ) (i : Nat) :
    (mutateWeights g alpha ws i).length = ws.length := by
  induction ws generalizing i with
  | nil => rfl
  | cons w ws ih => simp [mutateWeights, ih]

lemma neuron_mutate_zero (g : Nat → ℚ) (nr : Neuron) (i : Nat) :
    (Neuron.mutate g 0 nr i).1 = nr := by
  cases nr
  simp [Neuron.mutate, mutateWeights_zero]

lemma Neuron.mutate_weights_length (g : Nat → ℚ) (alpha : ℚ) (nr : Neuron)
    (i : Nat) :
    (Neuron.mutate g alpha nr i).1.weights.length = nr.weights.length := by
  simp [Neuron.mutate, mutateWeights_length]

lemma mutateNeurons_zero (g : Nat → ℚ) (ns : List Neuron) (i : Nat) :
    (mutateNeurons g 0 ns i).1 = ns := by
  induction ns generalizing i with
  | nil => rfl
  | cons nr ns ih => simp [mutateNeurons, neuron_mutate_zero, ih]

lemma mutateNeurons_lengths (g : Nat → ℚ) (alpha : ℚ) (ns : List Neuron)
    (i : Nat) :
    (mutateNeurons g alpha ns i).1.map (fun nr => nr.weights.length)
      = ns.map (fun nr => nr.weights.length) := by
  induction ns generalizing i with
  | nil => rfl
  | cons nr ns ih => simp [mutateNeurons, Neuron.mutate_weights_length, ih]

lemma mutateNeurons_count (g : Nat → ℚ) (alpha : ℚ) (ns : List Neuron)
    (i : Nat) : (mutateNeurons g alpha ns i).1.length = ns.length := by
  have := congrArg List.length (mutateNeurons_lengths g alpha ns i)
  simpa using this

lemma layer_mutate_zero (g : Nat → ℚ) (l : Layer) (i : Nat) :
    (Layer.mutate g 0 l i).1 = l := by
  cases l
  simp [Layer.mutate, mutateNeurons_zero]

lemma mutateLayers_zero (g : Nat → ℚ) (ls : List Layer) (i : Nat) :
    (mutateLayers g 0 ls i).1 = ls := by
  induction ls generalizing i with
  | nil => rfl
  | cons l ls ih => simp [mutateLayers, layer_mutate_zero, ih]

lemma mutateLayers_shape (g : Nat → ℚ) (alpha : ℚ) (ls : List Layer)
    (i : Nat) :
    (mutateLayers g alpha ls i).1.map
        (fun l => l.neurons.map (fun nr => nr.weights.length))
      = ls.map (fun l => l.neurons.map (fun nr => nr.weights.length)) := by
  induction ls generalizing i with
  | nil => rfl
  | cons l ls ih =>
    simp [mutateLayers, Layer.mutate, mutateNeurons_lengths, ih]

lemma mutateLayers_count (g : Nat → ℚ) (alpha : ℚ) (ls : List Layer)
    (i : Nat) : (mutateLayers g alpha ls i).1.length = ls.length := by
  have := congrArg List.length (mutateLayers_shape g alpha ls i)
  simpa using this

lemma whLoop_correct : ∀ fuel n w h : Nat, 0 < n → 0 < h → w ≤ n →
    h + (n - w) < fuel →
    ∃ p : Nat × Nat, whLoop fuel n w h = some p ∧ p.1 * p.2 = n := by
  intro fuel
  induction fuel with
  | zero => intro n w h _ _ _ hf; exact (Nat.not_lt_zero _ hf).elim
  | succ f ih =>
    intro n w h hn hh hw hf
    by_cases heq : w * h = n
    · exact ⟨(w, h), by simp [whLoop, heq], heq⟩
    · by_cases hgt : n < w * h
      · have hh2 : 2 ≤ h := by
          by_contra hcon
          have h1 : h = 1 := by omega
          subst h1
          simp at hgt
          omega
        obtain ⟨p, hp, hpn⟩ := ih n w (h - 1) hn (by omega) hw (by omega)
        refine ⟨p, ?_, hpn⟩
        simp [whLoop, heq, hgt, hp]
      · have hwh : w * h < n := by omega
        have hwlt : w < n := by
          have hle : w * 1 ≤ w * h := Nat.mul_le_mul_left w hh
          omega
        obtain ⟨p, hp, hpn⟩ := ih n (w + 1) h hn hh (by omega) (by omega)
        refine ⟨p, ?_, hpn⟩
        simp [whLoop, heq, hgt, hp]

lemma whLoop_mono : ∀ (f1 n w h : Nat) (p : Nat × Nat),
    whLoop f1 n w h = some p → ∀ f2, f1 ≤ f2 → whLoop f2 n w h = some p := by
  intro f1
  induction f1 with
  | zero => intro n w h p hp; simp [whLoop] at hp
  | succ f ih =>
    intro n w h p hp f2 hle
    obtain ⟨f3, rfl⟩ : ∃ f3, f2 = f3 + 1 := ⟨f2 - 1, by omega⟩
    rw [whLoop] at hp ⊢
    by_cases heq : w * h = n
    · simp only [if_pos heq] at hp ⊢
      exact hp
    · by_cases hgt : n < w * h
      · simp only [if_neg heq, if_pos hgt] at hp ⊢
        exact ih _ _ _ _ hp _ (by omega)
      · simp only [if_neg heq, if_neg hgt] at hp ⊢
        exact ih _ _ _ _ hp _ (by omega)

lemma ceilSqrt_pos (n : Nat) (hn : 0 < n) : 0 < ceilSqrt n := by
  unfold ceilSqrt
  have := Nat.sqrt_pos.mpr hn
  split <;> omega

lemma noiseOf_length (g : Nat → ℚ) (alpha : ℚ) :
    ∀ (vs : List ℚ) (i : Nat), (noiseOf g alpha vs i).length = vs.length := by
  intro vs
  induction vs with
  | nil => intro i; rfl
  | cons v vs ih => intro i; simp [noiseOf, ih]

lemma noiseOf_getD (g : Nat → ℚ) (alpha : ℚ) :
    ∀ (vs : List ℚ) (i j : Nat), j < vs.length →
      (noiseOf g alpha vs i).getD j 0
        = (draw g (i + j) - vs.getD j 0) * alpha := by
  intro vs
  induction vs with
  | nil => intro i j hj; simp at hj
  | cons v vs ih =>
    intro i j hj
    cases j with
    | zero =>
      simp only [noiseOf, List.getD_cons_zero, Nat.add_zero]
      ring
    | succ j =>
      simp only [noiseOf, List.getD_cons_succ]
      rw [ih (i + 1) j (by simpa using hj)]
      have : i + 1 + j = i + (j + 1) := by omega
      rw [this]

lemma zip_add_getD : ∀ (xs ys : List ℚ) (j : Nat), j < xs.length →
    j < ys.length →
    ((xs.zip ys).map (fun p => p.1 + p.2)).getD j 0
      = xs.getD j 0 + ys.getD j 0 := by
  intro xs
  induction xs with
  | nil => intro ys j hj; simp at hj
  | cons x xs ih =>
    intro ys j hjx hjy
    cases ys with
    | nil => simp at hjy
    | cons y ys =>
      cases j with
      | zero => simp
      | succ j =>
        simp only [List.zip_cons_cons, List.map_cons, List.getD_cons_succ]
        exact ih ys j (by simpa using hjx) (by simpa using hjy)

lemma mapSome_total {α β : Type} (f : α → Option β) :
    ∀ l : List α, (∀ a ∈ l, (f a).isSome) →
      ∃ ys, mapSome f l = some ys ∧ ys.length = l.length := by
  intro l
  induction l with
  | nil => intro h; exact ⟨[], rfl, rfl⟩
  | cons a l ih =>
    intro h
    obtain ⟨b, hb⟩ := Option.isSome_iff_exists.mp (h a (by simp))
    obtain ⟨ys, hys, hlen⟩ := ih (fun x hx => h x (by simp [hx]))
    exact ⟨b :: ys, by simp [mapSome, hb, hys], by simp [hlen]⟩

lemma allIdx_length (w h : Nat) : (allIdx w h).length = h * w := by
  induction h with
  | zero => simp [allIdx]
  | succ h ih =>
    rw [allIdx, List.range_succ, List.flatMap_append] at *
    simp only [List.length_append, ih]
    simp [rowIdx, Nat.succ_mul]

lemma mem_allIdx {w h i : Nat} (hi : i ∈ allIdx w h) :
    ∃ x y, x < w ∧ y < h ∧ i = (x + y * w) * 4 := by
  simp only [allIdx, rowIdx, List.mem_flatMap, List.mem_map,
    List.mem_range] at hi
  obtain ⟨y, hy, x, hx, rfl⟩ := hi
  exact ⟨x, y, hx, hy, rfl⟩

lemma list_len4 {α : Type} (l : List α) (h : l.length = 4) :
    ∃ a b c d, l = [a, b, c, d] := by
  match l with
  | [a, b, c, d] => exact ⟨a, b, c, d, rfl⟩
  | [] => simp at h
  | [a] => simp at h
  | [a, b] => simp at h
  | [a, b, c] => simp at h
  | a :: b :: c :: d :: e :: rest => simp at h

lemma pixelAt_isSome {inputs : List ℚ} {index : Nat}
    (h : index + 4 ≤ inputs.length) : (pixelAt inputs index).isSome := by
  have hlen : (((inputs.drop index).take 4).map toByte).length = 4 := by
    simp only [List.length_map, List.length_take, List.length_drop]
    omega
  obtain ⟨a, b, c, d, hl⟩ := list_len4 _ hlen
  rw [pixelAt, if_pos h, hl]
  rfl

lemma mapSome_of_inverse {α β : Type} (f : α → β) (g2 : β → Option α)
    (h : ∀ a, g2 (f a) = some a) :
    ∀ xs : List α, mapSome g2 (xs.map f) = some xs := by
  intro xs
  induction xs with
  | nil => rfl
  | cons x xs ih => simp [mapSome, h, ih]

lemma decodeNum_encode (q : ℚ) : decodeNum (.num q) = some q := rfl

lemma decodeNat_encode (n : Nat) : decodeNat (.num (n : ℚ)) = some n := by
  simp [decodeNat]

lemma decodeAct_encode (a : ActivationFunction) :
    decodeAct (encodeAct a) = some a := by
  cases a <;> rfl

lemma decodeCost_encode (c : CostFunction) :
    decodeCost (encodeCost c) = some c := by
  cases c <;> rfl

lemma decodeNeuron_encode (nr : Neuron) :
    decodeNeuron (encodeNeuron nr) = some nr := by
  cases nr with
  | mk ws b o =>
    simp [decodeNeuron, encodeNeuron, Json.getField, List.find?, decodeNums,
      mapSome_of_inverse Json.num decodeNum decodeNum_encode, decodeNum]

lemma decodeLayer_encode (l : Layer) :
    decodeLayer (encodeLayer l) = some l := by
  cases l with
  | mk ns f =>
    simp [decodeLayer, encodeLayer, Json.getField, List.find?, decodeNeurons,
      mapSome_of_inverse encodeNeuron decodeNeuron decodeNeuron_encode,
      decodeAct_encode]

/-! ## Claim theorems -/

/-- C2: every network reachable through the public constructors (`new`, then
any sequence of `add_layer` calls, optionally finished by `build`) satisfies
the shape invariant: each adjacent pair of layers agrees on widths (layer i
neuron count = weight count of every neuron of layer i+1) and every neuron of
the first layer has `input_size` weights; `add_layer` establishes this by
giving the appended layer an input width equal to the current output width. -/
theorem C2_shape_invariant (net : Network)
    (h : ReachableC net ∨ ReachableR net) : net.shapeOK = true := by
  have key : ∀ m : Network, ReachableC m → m.shapeOK = true := by
    intro m hm
    induction hm with
    | new n => rfl
    | add_layer net size function g i _ ih =>
      unfold Network.shapeOK Network.add_layer at *
      apply layersChained_append _ _ _ ih
      rw [← Network.output_size_eq_chainOut]
      exact Layer.new_inputWidthIs _ _ _ _ _
  rcases h with hc | ⟨c, cost, hc, rfl⟩
  · exact key net hc
  · exact key c hc

/-- Witness for C2 at a concrete reachable network. -/
theorem C2_shape_invariant_witness :
    (((Network.new 2).add_layer 3 .Linear (fun _ => 0) 0).build .MSE).shapeOK
      = true :=
  C2_shape_invariant _
    (Or.inr ⟨(Network.new 2).add_layer 3 .Linear (fun _ => 0) 0, .MSE,
      ReachableC.add_layer _ 3 .Linear (fun _ => 0) 0 (ReachableC.new 2), rfl⟩)

/-- C1 (counterexample): the claim says ties are broken by the earliest
index, so that `Label::from([0.5, 0.5])` resolves to `Real`.  On the code,
Rust `Iterator::max_by` keeps the LAST maximal element on ties, so
`Label::from([0.5, 0.5])` yields index 1, i.e. `Fake`, not `Real`. -/
theorem C1_counterexample :
    Label.ofOutputs [1/2, 1/2] = some Label.Fake ∧
    Label.ofOutputs [1/2, 1/2] ≠ some Label.Real := by
  constructor
  · norm_num [Label.ofOutputs, maxByLast, Label.COUNT, List.enum]
  · norm_num [Label.ofOutputs, maxByLast, Label.COUNT, List.enum]
    decide

/-- C1 (amended): for every length-2 output vector, `Label::from` picks the
index of the maximum value with ties broken by the LATEST index (index 0
gives `Real`, index 1 gives `Fake`); `Label::from([0.9, 0.1]) == Real`,
`Label::from([0.2, 0.8]) == Fake`, and `Label::from([0.5, 0.5])` resolves
deterministically to `Fake`. -/
theorem C1_label_from_argmax :
    (∀ a b : ℚ, Label.ofOutputs [a, b]
        = some (if b < a then Label.Real else Label.Fake)) ∧
    Label.ofOutputs [9/10, 1/10] = some Label.Real ∧
    Label.ofOutputs [2/10, 8/10] = some Label.Fake ∧
    Label.ofOutputs [1/2, 1/2] = some Label.Fake := by
  have general : ∀ a b : ℚ, Label.ofOutputs [a, b]
      = some (if b < a then Label.Real else Label.Fake) := by
    intro a b
    by_cases hab : b < a
    · simp [Label.ofOutputs, maxByLast, Label.COUNT, List.enum, hab]
    · simp [Label.ofOutputs, maxByLast, Label.COUNT, List.enum, hab]
  refine ⟨general, ?_, ?_, ?_⟩
  · rw [general]; norm_num
  · rw [general]; norm_num
  · rw [general]; norm_num

/-- C4: `Neuron::weighted_sum` aborts exactly when the input length differs
from the weight length (no silent truncation or padding); when the lengths
match it returns `Σ weight_i * input_i + bias` and memoizes that same value
in the `output` field of the neuron. -/
theorem C4_weighted_sum (nr : Neuron) (inputs : List ℚ) :
    (nr.weighted_sum inputs = none ↔ inputs.length ≠ nr.weights.length) ∧
    (inputs.length = nr.weights.length →
      nr.weighted_sum inputs = some
        ({ nr with output := (∑ i in Finset.range nr.weights.length,
              nr.weights.getD i 0 * inputs.getD i 0) + nr.bias },
         (∑ i in Finset.range nr.weights.length,
              nr.weights.getD i 0 * inputs.getD i 0) + nr.bias)) := by
  constructor
  · by_cases h : inputs.length = nr.weights.length
    · simp [Neuron.weighted_sum, h]
    · simp [Neuron.weighted_sum, h]
  · intro h
    have hsum :
        (nr.weights.zip inputs).foldl
            (fun accumulator p => accumulator + p.1 * p.2) 0 + nr.bias
          = (∑ i in Finset.range nr.weights.length,
              nr.weights.getD i 0 * inputs.getD i 0) + nr.bias := by
      rw [foldl_mul_sum]
      have hz := zip_map_sum_eq (fun a b => a * b) nr.weights inputs h.symm
      simp only [zero_add]
      rw [hz]
    simp only [Neuron.weighted_sum, h]
    simp [hsum]

/-- Witness for C4 at a concrete neuron and input vector. -/
theorem C4_weighted_sum_witness :
    ([4, 5] : List ℚ).length = (Neuron.mk [1, 2] 3 0).weights.length ∧
    ((Neuron.mk [1, 2] 3 0).weighted_sum [4, 5] = none
        ↔ ([4, 5] : List ℚ).length ≠ (Neuron.mk [1, 2] 3 0).weights.length) ∧
    ((Neuron.mk [1, 2] 3 0).weighted_sum [4, 5] = some
        ({ Neuron.mk [1, 2] 3 0 with
            output := (∑ i in Finset.range (Neuron.mk [1, 2] 3 0).weights.length,
              (Neuron.mk [1, 2] 3 0).weights.getD i 0
                * ([4, 5] : List ℚ).getD i 0) + (Neuron.mk [1, 2] 3 0).bias },
         (∑ i in Finset.range (Neuron.mk [1, 2] 3 0).weights.length,
              (Neuron.mk [1, 2] 3 0).weights.getD i 0
                * ([4, 5] : List ℚ).getD i 0) + (Neuron.mk [1, 2] 3 0).bias)) :=
  ⟨rfl, (C4_weighted_sum (Neuron.mk [1, 2] 3 0) [4, 5]).1,
    (C4_weighted_sum (Neuron.mk [1, 2] 3 0) [4, 5]).2 rfl⟩

/-- C6: for output and target vectors of equal positive length `n`,
`MeanSquaredError.apply(outputs, targets)` equals
`(Σ (target_i - output_i)^2) / n`, and it is exactly 0 when the outputs
equal the targets. -/
theorem C6_mse (fexp fln : ℚ → ℚ) (outputs targets : List ℚ)
    (hlen : outputs.length = targets.length) (hpos : 0 < outputs.length) :
    CostFunction.MSE.apply fexp fln outputs targets
      = (∑ i in Finset.range outputs.length,
          (targets.getD i 0 - outputs.getD i 0) ^ 2) / (outputs.length : ℚ) ∧
    (outputs = targets →
      CostFunction.MSE.apply fexp fln outputs targets = 0) := by
  have hnum : ((outputs.zip targets).map
        (fun p => (p.2 - p.1) * (p.2 - p.1))).sum
      = ∑ i in Finset.range outputs.length,
          (targets.getD i 0 - outputs.getD i 0) ^ 2 := by
    have hz := zip_map_sum_eq (fun o t => (t - o) * (t - o)) outputs targets hlen
    simpa [sq] using hz
  have main : CostFunction.MSE.apply fexp fln outputs targets
      = (∑ i in Finset.range outputs.length,
          (targets.getD i 0 - outputs.getD i 0) ^ 2) / (outputs.length : ℚ) := by
    simp only [CostFunction.apply, hnum]
  refine ⟨main, fun heq => ?_⟩
  rw [main]
  subst heq
  simp

/-- Witness for C6 at concrete vectors. -/
theorem C6_mse_witness :
    ([1, 2] : List ℚ).length = ([3, 4] : List ℚ).length ∧
    0 < ([1, 2] : List ℚ).length ∧
    CostFunction.MSE.apply id id [1, 2] [3, 4]
      = (∑ i in Finset.range ([1, 2] : List ℚ).length,
          (([3, 4] : List ℚ).getD i 0 - ([1, 2] : List ℚ).getD i 0) ^ 2)
        / (([1, 2] : List ℚ).length : ℚ) :=
  ⟨rfl, by decide, (C6_mse id id [1, 2] [3, 4] rfl (by decide)).1⟩

/-- C7: `mutate(0.0)` leaves every `Neuron`, `Layer` and `Ready` network
bitwise unchanged (all weights and biases untouched), and for every `alpha`,
`mutate(alpha)` preserves the topology: the weight-vector length of a neuron,
the neuron count and per-neuron weight lengths of a layer, and the layer
count, per-layer shape, input size and cost tag of a network. -/
theorem C7_mutate_frame (g : Nat → ℚ) (alpha : ℚ) (i : Nat)
    (nr : Neuron) (l : Layer) (net : Network) :
    (Neuron.mutate g 0 nr i).1 = nr ∧
    (Layer.mutate g 0 l i).1 = l ∧
    (Network.mutate g 0 net i).1 = net ∧
    (Neuron.mutate g alpha nr i).1.weights.length = nr.weights.length ∧
    (Layer.mutate g alpha l i).1.neurons.length = l.neurons.length ∧
    ((Layer.mutate g alpha l i).1.neurons.map (fun x => x.weights.length)
        = l.neurons.map (fun x => x.weights.length)) ∧
    (Network.mutate g alpha net i).1.layers.length = net.layers.length ∧
    (Network.mutate g alpha net i).1.shape = net.shape ∧
    (Network.mutate g alpha net i).1.input_size = net.input_size ∧
    (Network.mutate g alpha net i).1.cost_function = net.cost_function := by
  refine ⟨neuron_mutate_zero g nr i, layer_mutate_zero g l i, ?_,
    Neuron.mutate_weights_length g alpha nr i, ?_, ?_, ?_, ?_, rfl, rfl⟩
  · cases net
    simp [Network.mutate, mutateLayers_zero]
  · simp [Layer.mutate, mutateNeurons_count]
  · simp [Layer.mutate, mutateNeurons_lengths]
  · simp [Network.mutate, mutateLayers_count]
  · simp [Network.mutate, Network.shape, mutateLayers_shape]

/-- C5: the width/height search of the decoder terminates for every positive
pixel count `n = L/4`, deterministically (the result does not depend on the
fuel once it is at least `whFuel n`), and the resulting dimensions satisfy
`width * height = n` exactly. -/
theorem C5_search_terminates (n : Nat) (hn : 0 < n) :
    ∃ p : Nat × Nat, p.1 * p.2 = n ∧ findDims n = some p ∧
      ∀ fuel, whFuel n ≤ fuel →
        whLoop fuel n (Nat.sqrt n) (ceilSqrt n) = some p := by
  have hw : Nat.sqrt n ≤ n := Nat.sqrt_le_self n
  have hh : 0 < ceilSqrt n := ceilSqrt_pos n hn
  obtain ⟨p, hp, hpn⟩ := whLoop_correct (whFuel n) n (Nat.sqrt n) (ceilSqrt n)
    hn hh hw (by unfold whFuel; omega)
  exact ⟨p, hpn, hp, fun fuel hf => whLoop_mono _ _ _ _ _ hp fuel hf⟩

/-- Witness for C5 at the concrete pixel count 5. -/
theorem C5_search_terminates_witness :
    0 < 5 ∧ ∃ p : Nat × Nat, p.1 * p.2 = 5 ∧ findDims 5 = some p ∧
      ∀ fuel, whFuel 5 ≤ fuel →
        whLoop fuel 5 (Nat.sqrt 5) (ceilSqrt 5) = some p :=
  ⟨by decide, C5_search_terminates 5 (by decide)⟩

/-- C8: `add_noise(alpha)` returns a pair of a new `Datapoint` and the noise
vector: the new datapoint keeps the label and the input length, its inputs
are elementwise the original inputs plus the noise, and each noise entry is
the unit draw rescaled to `[-v, 1-v)` (that is, `draw - v`) and scaled by
`alpha`.  The receiver is read, never written, so the original datapoint is
unchanged (the embedding is a pure function of it). -/
theorem C8_add_noise (g : Nat → ℚ) (dp : Datapoint) (alpha : ℚ) (i j : Nat)
    (hj : j < dp.inputs.length) :
    (dp.add_noise g alpha i).1.label = dp.label ∧
    (dp.add_noise g alpha i).1.inputs.length = dp.inputs.length ∧
    (dp.add_noise g alpha i).2.length = dp.inputs.length ∧
    (dp.add_noise g alpha i).1.inputs.getD j 0
      = dp.inputs.getD j 0 + (dp.add_noise g alpha i).2.getD j 0 ∧
    (dp.add_noise g alpha i).2.getD j 0
      = (draw g (i + j) - dp.inputs.getD j 0) * alpha := by
  have hlen : (noiseOf g alpha dp.inputs i).length = dp.inputs.length :=
    noiseOf_length g alpha dp.inputs i
  refine ⟨rfl, ?_, hlen, ?_, noiseOf_getD g alpha dp.inputs i j hj⟩
  · simp [Datapoint.add_noise, hlen]
  · exact zip_add_getD dp.inputs (noiseOf g alpha dp.inputs i) j hj
      (by rw [hlen]; exact hj)

/-- Witness for C8 at a concrete datapoint, stream and index. -/
theorem C8_add_noise_witness :
    0 < (Datapoint.mk [1/2] Label.Real).inputs.length ∧
    ((Datapoint.mk [1/2] Label.Real).add_noise (fun _ => 1/4) 2 9).1.label
        = (Datapoint.mk [1/2] Label.Real).label ∧
    ((Datapoint.mk [1/2] Label.Real).add_noise (fun _ => 1/4) 2 9).1.inputs.length
        = (Datapoint.mk [1/2] Label.Real).inputs.length ∧
    ((Datapoint.mk [1/2] Label.Real).add_noise (fun _ => 1/4) 2 9).2.length
        = (Datapoint.mk [1/2] Label.Real).inputs.length ∧
    ((Datapoint.mk [1/2] Label.Real).add_noise (fun _ => 1/4) 2 9).1.inputs.getD 0 0
        = (Datapoint.mk [1/2] Label.Real).inputs.getD 0 0
          + ((Datapoint.mk [1/2] Label.Real).add_noise (fun _ => 1/4) 2 9).2.getD 0 0 ∧
    ((Datapoint.mk [1/2] Label.Real).add_noise (fun _ => 1/4) 2 9).2.getD 0 0
        = (draw (fun _ => 1/4) (9 + 0)
            - (Datapoint.mk [1/2] Label.Real).inputs.getD 0 0) * 2 :=
  ⟨by decide, C8_add_noise (fun _ => 1/4) (Datapoint.mk [1/2] Label.Real) 2 9 0
    (by decide)⟩

/-- C10: `cost` on an empty dataset does not abort: the loop contributes the
zero accumulator, which is then divided by the dataset size 0; as an IEEE
`f64` division this yields NaN, so an empty dataset is indistinguishable
from an invalid fitness rather than being rejected. -/
theorem C10_cost_empty_nan (fexp fln : ℚ → ℚ) (net : Network) :
    Network.cost fexp fln net ⟨[]⟩ = some (net, FVal.nan) := by
  simp [Network.cost, costLoop, Dataset.size, fdiv]

/-- C9 (counterexample): the claim says a zero-length or non-multiple-of-4
input vector makes the decoder abort.  On the code, `inputs.len() / 4` floor
divides, so the empty vector decodes to a 0x0 image and a length-5 vector
decodes to a 1x1 image that silently drops the trailing value: neither
aborts. -/
theorem C9_counterexample :
    toImage ⟨[], Label.Real⟩ = some ⟨0, 0, []⟩ ∧
    toImage ⟨[0, 0, 0, 0, 0], Label.Real⟩ = some ⟨1, 1, [(0, 0, 0, 0)]⟩ := by
  constructor
  · rfl
  · norm_num [toImage, findDims, whFuel, ceilSqrt, whLoop, allIdx, rowIdx,
      mapSome, pixelAt, toByte, List.range_succ]

/-- C9 (amended): decoding a `Datapoint` to a pixel buffer never aborts,
whatever the input length: the pixel count is the floor of `len / 4` (so a
zero-length vector gives a 0x0 image and a non-multiple-of-4 length silently
ignores the trailing `len mod 4` values), and the produced image satisfies
`width * height = len / 4` with one pixel per index. -/
theorem C9_decoder_total (dp : Datapoint) :
    ∃ img : Image, toImage dp = some img ∧
      img.width * img.height = dp.inputs.length / 4 ∧
      img.pixels.length = img.height * img.width := by
  by_cases h0 : dp.inputs.length / 4 = 0
  · refine ⟨⟨0, 0, []⟩, ?_, by simp [h0], by simp⟩
    simp [toImage, h0]
    rfl
  · have hn1 : 0 < dp.inputs.length / 4 := Nat.pos_of_ne_zero h0
    obtain ⟨p, hp, hmul⟩ := whLoop_correct (whFuel (dp.inputs.length / 4))
      (dp.inputs.length / 4) (Nat.sqrt (dp.inputs.length / 4))
      (ceilSqrt (dp.inputs.length / 4)) hn1
      (ceilSqrt_pos _ hn1) (Nat.sqrt_le_self _) (by unfold whFuel; omega)
    obtain ⟨w, h⟩ := p
    have hfd : findDims (dp.inputs.length / 4) = some (w, h) := hp
    have hbound : ∀ idx ∈ allIdx w h, idx + 4 ≤ dp.inputs.length := by
      intro idx hidx
      obtain ⟨x, y, hx, hy, rfl⟩ := mem_allIdx hidx
      have h1 : x + y * w + 1 ≤ w * h := by
        have h3 : (y + 1) * w ≤ h * w := Nat.mul_le_mul_right w hy
        have h4 : (y + 1) * w = y * w + w := by ring
        have h5 : h * w = w * h := Nat.mul_comm h w
        omega
      have h2 : (x + y * w) * 4 + 4 ≤ (w * h) * 4 := by omega
      have h6 : (w * h) * 4 ≤ dp.inputs.length := by
        rw [hmul]
        exact Nat.div_mul_le_self dp.inputs.length 4
      omega
    have hpix : ∀ idx ∈ allIdx w h, (pixelAt dp.inputs idx).isSome :=
      fun idx hi => pixelAt_isSome (hbound idx hi)
    obtain ⟨ys, hys, hyslen⟩ := mapSome_total (pixelAt dp.inputs) _ hpix
    refine ⟨⟨w, h, ys⟩, ?_, hmul, ?_⟩
    · simp [toImage, hfd, hys]
    · simpa [allIdx_length] using hyslen

/-- C3: deserializing the serialization of a network reproduces it exactly:
the equality of the `Network` values gives identical `input_size`, layer
count, per-layer neuron count, (in this exact-rational model of `f64`)
bit-identical weights and biases, and the same activation and cost tags. -/
theorem C3_serialize_roundtrip (net : Network) :
    Network.deserialize (Network.serialize net) = some net := by
  cases net with
  | mk n ls c =>
    simp [Network.serialize, Network.deserialize, Json.getField, List.find?,
      decodeLayers, mapSome_of_inverse encodeLayer decodeLayer decodeLayer_encode,
      decodeNat_encode, decodeCost_encode]

end Setonix
